import Mathlib

/-!
# Verification of the vault-proxy-agent request pipeline

Shallow embedding of the Go sources of `vault-proxy-agent`:
the cache store (`part_003` and the `cachedResponse` file), the rate
limiter registry (`part_002`), the request fingerprinter (`part_001`),
the peer membership/router (`part_000`), the upstream proxy
(`vaultProxy.go`) and the configuration constants (`config.go`).

Go maps are modelled as association lists (Go map iteration order is
unspecified; the embedding fixes the list order).  Machine integers are
`Nat` with explicit `% 2^32` where the Go code works on `uint32`.
Millisecond timestamps (`time.Now().UnixMilli()`) are `Int`; a single
request is modelled as happening at one instant `now`.  Code paths that
dereference a `nil` pointer in Go are modelled by the `GoResult.nilPanic`
constructor.
-/

namespace VaultProxy

/-! ## Configuration constants (`config.go`) -/

def VAULT_CACHE_DEFAULT_EXPIRATION : Int := 30
def VAULT_CACHE_PURGE_FREQUENCY : Int := 30
def CACHEABLE_SUBPATHS : List String := ["/v1/secret/data"]
def METHODS_TO_IGNORE : List String := ["DELETE", "POST", "PATCH"]
def RATE_LIMITER_DEFAULT_EXPIRATION : Int := 60
def RATE_LIMITER_PURGE_FREQUENCY : Int := 60
def BURST_LIMIT_PER_SECOND : Nat := 2
def RATE_LIMIT_PER_MINUTE : Nat := 5
def RATE_LIMITER_BUCKET_SIZE : Nat := 5
def CACHE_SIZE : Nat := 2
def RATE_LIMITER_CACHE_SIZE : Nat := 2
def VAULT_CONFIG_CHECK_FREQUENCY : Int := 5
def AGENT_VAULT_PORT_DIFF : Int := 1000

/-! ## Murmur3 32-bit hash (`hash` in `part_000`, library `murmur3.Sum32WithSeed`)

The x86 32-bit Murmur3 over a byte list, little-endian blocks, processed
one byte at a time through a fold so the definition is structural and
kernel-evaluable. -/

/-- Truncate to 32 bits (`uint32` arithmetic). -/
def m32 (x : Nat) : Nat := x % 4294967296

/-- 32-bit left rotation of a value `x < 2^32`. -/
def rotl32 (x r : Nat) : Nat := m32 (x * 2 ^ r) ||| x / 2 ^ (32 - r)

/-- The Murmur3 k1 mixing: `k *= c1; k = rotl(k,15); k *= c2`. -/
def mixK1 (k : Nat) : Nat := m32 (rotl32 (m32 (k * 0xcc9e2d51)) 15 * 0x1b873593)

/-- The Murmur3 block step on h1: `h ^= mixK1 k; h = rotl(h,13); h = h*5 + 0xe6546b64`. -/
def mixH1 (h k : Nat) : Nat := m32 (rotl32 (h ^^^ mixK1 k) 13 * 5 + 0xe6546b64)

/-- Fold state: running hash, partially accumulated little-endian block,
bit position of the next byte in the block, and byte count so far. -/
structure MurmurState where
  h : Nat
  acc : Nat
  shift : Nat
  len : Nat

/-- Consume one input byte: accumulate into the current block and mix a
full 4-byte block into the hash. -/
def murmurStep (s : MurmurState) (b : Nat) : MurmurState :=
  let acc := s.acc + (b % 256) * 2 ^ s.shift
  if s.shift == 24 then
    { h := mixH1 s.h acc, acc := 0, shift := 0, len := s.len + 1 }
  else
    { h := s.h, acc := acc, shift := s.shift + 8, len := s.len + 1 }

/-- Murmur3 x86 32-bit digest of a byte list with the given seed. -/
def murmur3 (bytes : List Nat) (seed : Nat) : Nat :=
  let s := bytes.foldl murmurStep { h := m32 seed, acc := 0, shift := 0, len := 0 }
  let h := if s.shift == 0 then s.h else s.h ^^^ mixK1 s.acc
  let h := h ^^^ m32 s.len
  let h := h ^^^ h / 2 ^ 16
  let h := m32 (h * 0x85ebca6b)
  let h := h ^^^ h / 2 ^ 13
  let h := m32 (h * 0xc2b2ae35)
  h ^^^ h / 2 ^ 16

/-! ## Request fingerprinter (`part_001`) -/

/-- Go's `strings.Contains s sub`: `sub` occurs as a contiguous substring of `s`. -/
def goStringsContains (s sub : String) : Bool := decide (sub.data <:+: s.data)

/-- `checkPathCacheable` from `part_001`: the URL path contains one of the
configured cacheable subpaths as a substring. -/
def checkPathCacheable (path : String) : Bool :=
  CACHEABLE_SUBPATHS.any (fun sub => goStringsContains path sub)

/-- `checkRequestIgnorable` from `part_001`: the request method contains one
of the configured methods as a substring (Go `strings.Contains(method, methodName)`). -/
def checkRequestIgnorable (method : String) : Bool :=
  METHODS_TO_IGNORE.any (fun methodName => goStringsContains method methodName)

/-- The mutating-method predicate as the spec words it (§4.3): exact,
case-sensitive equality against `POST`, `PUT`, `PATCH`, `DELETE`.  Used only
to compare the spec's wording with the source's `checkRequestIgnorable`. -/
def specMutatingMethod (method : String) : Bool :=
  method == "POST" || method == "PUT" || method == "PATCH" || method == "DELETE"

/-! ## HTTP responses and cached responses (`cachedResponse` file) -/

/-- An upstream `http.Response` as the cache sees it: status, headers, and
the body stream.  `bodyBytes` are the bytes the stream yields before either
ending normally or failing; `bodyReadErr` marks a stream that errors after
yielding `bodyBytes` (the error an `io.Copy` from this body would return). -/
structure HttpResponse where
  status : Nat
  headers : List (String × String)
  bodyBytes : String
  bodyReadErr : Bool
deriving DecidableEq, Repr

/-- `cachedResponse`: captured status/headers/body plus the two timestamps. -/
structure CachedResponse where
  status : Nat
  headers : List (String × String)
  bodyData : String
  expires : Int
  lastUsed : Int
deriving DecidableEq, Repr

/-- `cachedResponse.getResponse`: the stored response with the body rewound
to the captured bytes. -/
def CachedResponse.getResponse (cr : CachedResponse) : HttpResponse :=
  { status := cr.status, headers := cr.headers, bodyBytes := cr.bodyData
    , bodyReadErr := false }

/-- `cachedResponse.isExpired`: `time.Now().UnixMilli() > cr.expires`. -/
def CachedResponse.isExpired (cr : CachedResponse) (now : Int) : Bool :=
  now > cr.expires

/-- `newCachedResponse`: copies the body into a buffer (the `io.Copy` error,
if the stream fails, is DISCARDED by the source — the entry is built from the
bytes copied so far) and stamps `expires = now + VAULT_CACHE_DEFAULT_EXPIRATION*1000`,
`lastUsed = now`. -/
def newCachedResponse (response : HttpResponse) (now : Int) : CachedResponse :=
  { status := response.status
    , headers := response.headers
    , bodyData := response.bodyBytes
    , expires := now + VAULT_CACHE_DEFAULT_EXPIRATION * 1000
    , lastUsed := now }

/-! ## Cache store (`part_003`)

The Go `map[string]*cachedResponse` is an association list; Go map
iteration order is unspecified, the embedding uses list order. -/

/-- A cache map entry list plus the sweep timestamp (`vaultCache`). -/
structure VaultCacheState where
  cache : List (String × CachedResponse)
  lastCachePurge : Int
deriving DecidableEq, Repr

/-- The key set of a cache map, in list order. -/
def cacheKeys (c : List (String × CachedResponse)) : List String := c.map (·.1)

/-- `getFromCache`: map read. -/
def getFromCache (c : List (String × CachedResponse)) (key : String) :
    Option CachedResponse :=
  (c.find? (fun p => p.1 == key)).map (·.2)

/-- Go `delete(c.cache, key)`. -/
def goDeleteKey (c : List (String × CachedResponse)) (key : String) :
    List (String × CachedResponse) :=
  c.filter (fun p => p.1 != key)

/-- Go map assignment `c.cache[key] = v`: overwrite in place or append. -/
def goSetKey (c : List (String × CachedResponse)) (key : String)
    (v : CachedResponse) : List (String × CachedResponse) :=
  if c.any (fun p => p.1 == key) then
    c.map (fun p => if p.1 == key then (p.1, v) else p)
  else
    c ++ [(key, v)]

/-- The `lastUsed` timestamp the LRU sort reads for a key (0 if absent;
the purge only sorts keys taken from the map, so every key is present). -/
def luOf (c : List (String × CachedResponse)) (k : String) : Int :=
  ((getFromCache c k).map (·.lastUsed)).getD 0

/-- The purge loop of `purgeLruCacheEntries`:
`for i, k := range keys { delete(c.cache, k); if i >= len(c.cache)/4 { break } }`.
Note the loop re-reads the length of the *shrinking* map after each delete. -/
def purgeLoop : List String → Nat → List (String × CachedResponse) →
    List (String × CachedResponse)
  | [], _, c => c
  | k :: ks, i, c =>
      let c' := goDeleteKey c k
      if c'.length / 4 ≤ i then c' else purgeLoop ks (i + 1) c'

/-- The keys of the cache stably sorted by `lastUsed` ascending
(`sort.SliceStable`). -/
def sortedKeysByLu (c : List (String × CachedResponse)) : List String :=
  List.insertionSort (fun a b => luOf c a ≤ luOf c b) (cacheKeys c)

/-- `purgeLruCacheEntries`: when the map is at or above `CACHE_SIZE`, sort
all keys by `lastUsed` ascending and run the delete loop. -/
def purgeLruCacheEntries (c : List (String × CachedResponse)) :
    List (String × CachedResponse) :=
  if CACHE_SIZE ≤ c.length then purgeLoop (sortedKeysByLu c) 0 c else c

/-- `setInCache`: LRU purge when full, then store `newCachedResponse`. -/
def setInCache (st : VaultCacheState) (key : String) (response : HttpResponse)
    (now : Int) : VaultCacheState :=
  { st with cache :=
      goSetKey (purgeLruCacheEntries st.cache) key (newCachedResponse response now) }

/-- `removeFromCache`: unconditional delete. -/
def removeFromCache (st : VaultCacheState) (key : String) : VaultCacheState :=
  { st with cache := goDeleteKey st.cache key }

/-- `purgeOldCacheEntries`: the TTL sweep, time-gated on
`VAULT_CACHE_PURGE_FREQUENCY`; deletes every expired entry. -/
def purgeOldCacheEntries (st : VaultCacheState) (now : Int) : VaultCacheState :=
  if st.lastCachePurge < now - VAULT_CACHE_PURGE_FREQUENCY * 1000 then
    { cache := st.cache.filter (fun p => !(p.2.isExpired now))
      , lastCachePurge := now }
  else st

/-- Replace the value stored under `key` (first occurrence); models
mutation through the shared `*cachedResponse` pointer. -/
def updateEntry (c : List (String × CachedResponse)) (key : String)
    (v : CachedResponse) : List (String × CachedResponse) :=
  match c with
  | [] => []
  | (k, w) :: rest =>
      if k == key then (k, v) :: rest else (k, w) :: updateEntry rest key v

/-- `getCachedResponse`: TTL sweep, then lookup; a hit requires the key to be
present and not expired, and bumps the entry's `lastUsed` to `now` (pointer
mutation of the stored entry).  Returns the (rewound) response on a hit. -/
def getCachedResponse (st : VaultCacheState) (cacheKey : String) (now : Int) :
    Option CachedResponse × VaultCacheState :=
  let st1 := purgeOldCacheEntries st now
  match getFromCache st1.cache cacheKey with
  | some cr =>
      if !(cr.isExpired now) then
        let cr' := { cr with lastUsed := now }
        (some cr', { st1 with cache := updateEntry st1.cache cacheKey cr' })
      else (none, st1)
  | none => (none, st1)

/-- Outcome of a call into the Go runtime that may dereference a nil
pointer: a value, or a runtime panic. -/
inductive GoResult (α : Type) where
  | ok : α → GoResult α
  | nilPanic : GoResult α
deriving DecidableEq, Repr

/-- `refreshCache`: call the refresher (modelled by its result: the returned
`*http.Response`, `none` for Go `nil`, and the returned error) and insert
into the cache when `response.StatusCode == 200`.  The source reads
`response.StatusCode` without checking `err`, so a `nil` response — which is
what `http.Client.Do` yields alongside any transport error — is a nil
dereference. -/
def refreshCache (st : VaultCacheState) (cacheKey : String) (now : Int)
    (refresherResponse : Option HttpResponse) (refresherErr : Option String) :
    GoResult (HttpResponse × Option String × VaultCacheState) :=
  match refresherResponse with
  | none => .nilPanic
  | some r =>
      let st' := if r.status == 200 then setInCache st cacheKey r now else st
      .ok (r, refresherErr, st')

/-! ## Rate limiter registry (`part_002`)

A `rate.Limiter` at a fixed instant is its steady-state rate (`rate.Limit`,
events per second, a rational), its bucket capacity, and the whole tokens
currently available.  `Allow` consumes one token when available. -/

/-- One `rate.Limiter` token bucket. -/
structure BucketLimiter where
  limit : ℚ
  burst : Nat
  tokens : Nat
deriving DecidableEq, Repr

/-- `rate.Limiter.Allow`: consume a token if one is available. -/
def bucketAllow (b : BucketLimiter) : Bool × BucketLimiter :=
  if 1 ≤ b.tokens then (true, { b with tokens := b.tokens - 1 }) else (false, b)

/-- `multiLimiter.Allow`: ask each bucket in order, stopping at the first
denial; buckets before the denying one have already consumed. -/
def multiAllow : List BucketLimiter → Bool × List BucketLimiter
  | [] => (true, [])
  | b :: bs =>
      let (ok, b') := bucketAllow b
      if ok then
        let (rest, bs') := multiAllow bs
        (rest, b' :: bs')
      else (false, b' :: bs)

/-- The `MultiLimiter` constructor: sort the component limiters ascending by
steady-state rate (`sort.Slice` with `Limit i < Limit j`). -/
def MultiLimiter (limiters : List BucketLimiter) : List BucketLimiter :=
  List.insertionSort (fun a b => a.limit ≤ b.limit) limiters

/-- `multiLimiter.Limit`: the rate of the first (post-sort) bucket; Go
panics on an empty slice, modelled as `none`. -/
def multiLimit (limiters : List BucketLimiter) : Option ℚ :=
  limiters.head?.map (·.limit)

/-- `Per(eventCount, duration)` = `rate.Every(duration / eventCount)`:
the resulting `rate.Limit` in events per second, with the duration in
nanoseconds and Go's integer division of durations. -/
def Per (eventCount : Nat) (durationNs : Nat) : ℚ :=
  1000000000 / ((durationNs / eventCount : Nat) : ℚ)

/-- `time.Second` in nanoseconds. -/
def goSecond : Nat := 1000000000

/-- `time.Minute` in nanoseconds. -/
def goMinute : Nat := 60000000000

/-- The burst bucket of a fresh visitor:
`rate.NewLimiter(Per(BURST_LIMIT_PER_SECOND, time.Second), 1)`; a new
`rate.Limiter` starts with a full bucket. -/
def burstBucket (tokens : Nat) : BucketLimiter :=
  { limit := Per BURST_LIMIT_PER_SECOND goSecond, burst := 1, tokens := tokens }

/-- The sustained bucket of a fresh visitor:
`rate.NewLimiter(Per(RATE_LIMIT_PER_MINUTE, time.Minute), RATE_LIMITER_BUCKET_SIZE)`. -/
def sustainedBucket (tokens : Nat) : BucketLimiter :=
  { limit := Per RATE_LIMIT_PER_MINUTE goMinute
    , burst := RATE_LIMITER_BUCKET_SIZE, tokens := tokens }

/-- The composite limiter `setInLimiterCache` builds, with the given current
token counts (a fresh visitor has `burstTokens = 1`, `sustainedTokens =
RATE_LIMITER_BUCKET_SIZE`). -/
def visitorLimiter (burstTokens sustainedTokens : Nat) : List BucketLimiter :=
  MultiLimiter [burstBucket burstTokens, sustainedBucket sustainedTokens]

/-- A `visitor`: the composite limiter plus its `lastUsed` timestamp. -/
structure Visitor where
  buckets : List BucketLimiter
  lastUsed : Int
deriving DecidableEq, Repr

/-- The `tokenRateLimiter` state: visitor map plus the idle-purge timestamp. -/
structure LimiterRegistry where
  limiterCache : List (String × Visitor)
  lastRateLimiterPurge : Int
deriving DecidableEq, Repr

/-- Map read on the visitor map (first occurrence). -/
def lookupVisitor (m : List (String × Visitor)) (key : String) : Option Visitor :=
  (m.find? (fun p => p.1 == key)).map (·.2)

/-- Update the (first occurrence of the) visitor stored under `key`;
models mutation through the shared `*visitor` pointer. -/
def updateVisitor (m : List (String × Visitor)) (key : String)
    (f : Visitor → Visitor) : List (String × Visitor) :=
  match m with
  | [] => []
  | (k, v) :: rest =>
      if k == key then (k, f v) :: rest else (k, v) :: updateVisitor rest key f

/-- Go `delete` on the visitor map. -/
def goDeleteVisitor (m : List (String × Visitor)) (key : String) :
    List (String × Visitor) :=
  m.filter (fun p => p.1 != key)

/-- The delete loop of `purgeLruTokenLimiters` (same shape as the cache's). -/
def limiterPurgeLoop : List String → Nat → List (String × Visitor) →
    List (String × Visitor)
  | [], _, m => m
  | k :: ks, i, m =>
      let m' := goDeleteVisitor m k
      if m'.length / 4 ≤ i then m' else limiterPurgeLoop ks (i + 1) m'

/-- `purgeLruTokenLimiters`: when at or above `RATE_LIMITER_CACHE_SIZE`,
sort keys by the visitors' `lastUsed` ascending and run the delete loop. -/
def purgeLruTokenLimiters (m : List (String × Visitor)) :
    List (String × Visitor) :=
  if RATE_LIMITER_CACHE_SIZE ≤ m.length then
    let lu := fun k => (((m.find? (fun p => p.1 == k)).map (·.2.lastUsed)).getD 0)
    limiterPurgeLoop
      (List.insertionSort (fun a b => lu a ≤ lu b) (m.map (·.1))) 0 m
  else m

/-- `setInLimiterCache`: LRU purge when full, then insert a fresh visitor
(full buckets) stamped `now`; returns its limiter. -/
def setInLimiterCache (reg : LimiterRegistry) (token : String) (now : Int) :
    List BucketLimiter × LimiterRegistry :=
  let m := purgeLruTokenLimiters reg.limiterCache
  let fresh := visitorLimiter 1 RATE_LIMITER_BUCKET_SIZE
  (fresh,
    { reg with limiterCache :=
        if m.any (fun p => p.1 == token) then
          updateVisitor m token (fun _ => { buckets := fresh, lastUsed := now })
        else m ++ [(token, { buckets := fresh, lastUsed := now })] })

/-- `getFromLimiterCache`: return the stored visitor's limiter (bumping its
`lastUsed` to `now`) or create one via `setInLimiterCache`. -/
def getFromLimiterCache (reg : LimiterRegistry) (token : String) (now : Int) :
    List BucketLimiter × LimiterRegistry :=
  match lookupVisitor reg.limiterCache token with
  | some v =>
      let m := updateVisitor reg.limiterCache token (fun w => { w with lastUsed := now })
      (v.buckets, { reg with limiterCache := m })
  | none => setInLimiterCache reg token now

/-- `purgeTokenLimiters`: time-gated idle purge deleting every visitor with
`now > lastUsed + RATE_LIMITER_DEFAULT_EXPIRATION*1000`. -/
def purgeTokenLimiters (reg : LimiterRegistry) (now : Int) : LimiterRegistry :=
  if reg.lastRateLimiterPurge < now - RATE_LIMITER_PURGE_FREQUENCY * 1000 then
    { limiterCache :=
        reg.limiterCache.filter
          (fun p => !(decide (p.2.lastUsed + RATE_LIMITER_DEFAULT_EXPIRATION * 1000 < now)))
      , lastRateLimiterPurge := now }
  else reg

/-- The result of the rate-limiter middleware stage for one request. -/
inductive LimitedOutcome where
  | cachedHit : CachedResponse → LimitedOutcome
  | tooMany : LimitedOutcome
  | next : LimitedOutcome
deriving DecidableEq, Repr

/-- `RateLimitHandler` (`part_002`): idle purge, resolve this token's
composite limiter, consume one token non-blockingly (`Allow` — called before
any cache check), on a cacheable non-ignorable request try the cache and on a
hit serve it and stop (whatever `isAllowed` was), otherwise synthesize 429
when denied, else fall through to the next stage. -/
def rateLimitHandler (reg : LimiterRegistry) (cacheSt : VaultCacheState)
    (limiterKey cacheKey : String) (isPathCacheable isRequestIgnorable : Bool)
    (now : Int) : LimitedOutcome × LimiterRegistry × VaultCacheState :=
  let reg0 := purgeTokenLimiters reg now
  let gr := getFromLimiterCache reg0 limiterKey now
  let ma := multiAllow gr.1
  let m2 := updateVisitor gr.2.limiterCache limiterKey (fun w => { w with buckets := ma.2 })
  let reg2 := { gr.2 with limiterCache := m2 }
  if isPathCacheable && !isRequestIgnorable then
    let gc := getCachedResponse cacheSt cacheKey now
    match gc.1 with
    | some cr => (.cachedHit cr, reg2, gc.2)
    | none =>
        if !ma.1 then (.tooMany, reg2, gc.2)
        else (.next, reg2, gc.2)
  else
    if !ma.1 then (.tooMany, reg2, cacheSt)
    else (.next, reg2, cacheSt)

/-! ## Peer membership and router (`part_000`) -/

/-- A raft peer record (`Server`). -/
structure Server where
  address : String
  nodeId : String
  leader : Bool
  voter : Bool
deriving DecidableEq, Repr

/-- The agent's published membership state: the (sorted) server snapshot,
the index routing table, and the refresh timestamp (`vaultAgent`). -/
structure AgentState where
  servers : List Server
  routingTable : List String
  lastConfigCheck : Int
deriving DecidableEq, Repr

/-- Lexicographic (byte-order) comparison of character lists: Go's `≤` on
strings, written structurally so it kernel-evaluates. -/
def charListLe : List Char → List Char → Bool
  | [], _ => true
  | _ :: _, [] => false
  | a :: as, b :: bs =>
      if a.toNat < b.toNat then true
      else if b.toNat < a.toNat then false
      else charListLe as bs

/-- Go's `s1 <= s2` on strings (the sort below only ever needs `≤`). -/
def goStringLe (a b : String) : Bool := charListLe a.data b.data

/-- `sortByNodeId`'s sort: servers ascending by `node_id` (Go's `<` on
strings is byte-lexicographic). -/
def sortServers (servers : List Server) : List Server :=
  List.insertionSort (fun a b => goStringLe a.nodeId b.nodeId = true) servers

/-- The first mock server `addMockServers` appends (debug shim left in the
source, marked `REMOVE THIS BEFORE DEPLOYMENT`). -/
def mockServer1 : Server :=
  { address := "127.0.0.1:9001", nodeId := "raft2", leader := false, voter := true }

/-- The second mock server `addMockServers` appends. -/
def mockServer2 : Server :=
  { address := "127.0.0.1:9001", nodeId := "raft3", leader := false, voter := true }

/-- Split a character list on a separator (Go `strings.Split` with a
one-character separator, over the string's characters). -/
def splitCharsOn (sep : Char) : List Char → List (List Char)
  | [] => [[]]
  | c :: rest =>
      match splitCharsOn sep rest with
      | [] => if c == sep then [[], []] else [[c]]
      | g :: gs => if c == sep then [] :: g :: gs else (c :: g) :: gs

/-- Go `strings.Split(s, ":")`. -/
def goSplitColon (s : String) : List String :=
  (splitCharsOn ':' s.data).map String.mk

/-- Decimal digit parser for `strconv.Atoi` (ports are plain digit runs). -/
def parseDigitsAux : List Char → Nat → Option Nat
  | [], acc => some acc
  | c :: rest, acc =>
      if '0' ≤ c ∧ c ≤ '9' then parseDigitsAux rest (acc * 10 + (c.toNat - 48))
      else none

/-- Go `strconv.Atoi` as the source uses it: the error case is only logged
and the port variable keeps Go's zero value. -/
def goAtoi (s : String) : Nat := (parseDigitsAux s.data 0).getD 0

/-- `changePortMapping` on one address: split on `:`, rewrite the port to
`port - AGENT_VAULT_PORT_DIFF + i` (`strconv.Atoi` failure yields port 0 and
is only logged).  An address with no `:` makes the Go code index out of
range — `none`. -/
def changeAddr (i : Nat) (addr : String) : Option String :=
  match goSplitColon addr with
  | host :: portStr :: _ =>
      some (host ++ ":" ++ toString ((goAtoi portStr : Int) - AGENT_VAULT_PORT_DIFF + i))
  | _ => none

/-- `changePortMapping` over the server slice, threading the slice index. -/
def changePortMapping (i : Nat) : List Server → Option (List Server)
  | [] => some []
  | s :: rest =>
      match changeAddr i s.address with
      | none => none
      | some a => (changePortMapping (i + 1) rest).map
          (fun rs => { s with address := a } :: rs)

/-- Publication step shared by every successful refresh: sort the remapped
servers by `node_id` and rebuild the index routing table `0..N-1 → address`. -/
def publishSnapshot (remapped : List Server) (now : Int) : AgentState :=
  let sorted := sortServers remapped
  { servers := sorted, routingTable := sorted.map (·.address), lastConfigCheck := now }

/-- `getVaultConfigDetails`: when the refresh interval elapsed, fetch the
raft configuration and republish.  `fetched` is the observable result of the
HTTP fetch + `json.Unmarshal`: `none` models a transport error from
`client.Do` (which the source only logs before dereferencing the nil
response — a panic); `some none` models a non-JSON or unparseable body
(`json.Unmarshal`'s error is ignored, leaving the zero-valued struct);
`some (some servers)` is a parsed server list.  The source then appends the
two mock servers, remaps ports, sorts, and replaces the snapshot. -/
def getVaultConfigDetails (st : AgentState) (now : Int)
    (fetched : Option (Option (List Server))) : GoResult AgentState :=
  if st.lastConfigCheck < now - VAULT_CONFIG_CHECK_FREQUENCY * 1000 then
    match fetched with
    | none => .nilPanic
    | some parsed =>
        let base := match parsed with
          | none => []
          | some ss => ss
        match changePortMapping 0 (base ++ [mockServer1, mockServer2]) with
        | none => .nilPanic
        | some remapped => .ok (publishSnapshot remapped now)
  else .ok st

/-- `hash`: Murmur3 32-bit with seed `0x1234ABCD` of the token's bytes. -/
def hashToken (tokenBytes : List Nat) : Nat := murmur3 tokenBytes 0x1234ABCD

/-- `GetRoutingServer`: `agentRoutingTable[int(hash(token)) % len(servers)]`;
the `uint32 → int` conversion is non-negative, so Go's `%` is `Nat.mod`. -/
def getRoutingServer (st : AgentState) (tokenBytes : List Nat) : Option String :=
  st.routingTable[hashToken tokenBytes % st.servers.length]?

/-! ## Upstream proxy stage (`vaultProxy.go`) -/

/-- What the client connection observes from `ServeHTTP`. -/
inductive ProxyOutcome where
  /-- The upstream response streamed back verbatim. -/
  | served : Nat → String → ProxyOutcome
  /-- `http.Error 500` written first, then the upstream response appended
  (the non-nil-response-with-error case: the source does not return after
  `http.Error`). -/
  | error500ThenServed : Nat → String → ProxyOutcome
  /-- `http.Error 500` written, then a nil dereference copying the response. -/
  | error500ThenNilDeref : ProxyOutcome
  /-- A nil dereference before anything was written. -/
  | nilDeref : ProxyOutcome
deriving DecidableEq, Repr

/-- The HTTP status line the client actually receives, if any (the first
status written wins; `none` when the handler dies before writing). -/
def clientStatus : ProxyOutcome → Option Nat
  | .served s _ => some s
  | .error500ThenServed _ _ => some 500
  | .error500ThenNilDeref => some 500
  | .nilDeref => none

/-- `ServeHTTP` (`vaultProxy.go`): cacheable non-ignorable requests go
through `refreshCache` (inserting 200s) and any returned error yields
`http.Error 500` — without returning, so the response is still copied
afterwards; everything else calls upstream directly and streams the response
verbatim, with the same fall-through 500 on error.  `doResponse`/`doErr`
model the result of `client.Do` (a transport error comes with a nil
response). -/
def serveHTTP (cacheSt : VaultCacheState) (cacheKey : String)
    (isPathCacheable isRequestIgnorable : Bool) (now : Int)
    (doResponse : Option HttpResponse) (doErr : Option String) :
    ProxyOutcome × VaultCacheState :=
  if isPathCacheable && !isRequestIgnorable then
    match refreshCache cacheSt cacheKey now doResponse doErr with
    | .nilPanic => (.nilDeref, cacheSt)
    | .ok (r, err, cacheSt') =>
        match err with
        | some _ => (.error500ThenServed r.status r.bodyBytes, cacheSt')
        | none => (.served r.status r.bodyBytes, cacheSt')
  else
    match doResponse, doErr with
    | none, some _ => (.error500ThenNilDeref, cacheSt)
    | none, none => (.nilDeref, cacheSt)
    | some r, some _ => (.error500ThenServed r.status r.bodyBytes, cacheSt)
    | some r, none => (.served r.status r.bodyBytes, cacheSt)

/-! ## Association-list lemmas -/

theorem getFromCache_not_mem {c : List (String × CachedResponse)} {key : String}
    (h : key ∉ cacheKeys c) : getFromCache c key = none := by
  induction c with
  | nil => rfl
  | cons p rest ih =>
      simp only [cacheKeys, List.map_cons, List.mem_cons, not_or] at h
      simp only [getFromCache, List.find?_cons]
      have : (p.1 == key) = false := by
        simp only [beq_eq_false_iff_ne, ne_eq]
        exact fun e => h.1 e.symm
      rw [this]
      exact ih h.2

theorem getFromCache_filter (c : List (String × CachedResponse)) (key : String)
    (P : String × CachedResponse → Bool) (h : (cacheKeys c).Nodup) :
    getFromCache (c.filter P) key =
      match getFromCache c key with
      | some cr => if P (key, cr) then some cr else none
      | none => none := by
  induction c with
  | nil => rfl
  | cons p rest ih =>
      obtain ⟨k, v⟩ := p
      simp only [cacheKeys, List.map_cons, List.nodup_cons] at h
      by_cases hk : k = key
      · subst hk
        by_cases hP : P (k, v)
        · simp [getFromCache, List.filter_cons, hP]
        · have hnone : getFromCache (rest.filter P) k = none := by
            apply getFromCache_not_mem
            intro hmem
            apply h.1
            simp only [cacheKeys, List.mem_map] at hmem ⊢
            obtain ⟨q, hq, hq1⟩ := hmem
            exact ⟨q, List.mem_of_mem_filter hq, hq1⟩
          simpa [getFromCache, List.filter_cons, hP] using hnone
      · have hne : (k == key) = false := by simp [hk]
        by_cases hP : P (k, v)
        · simpa [getFromCache, List.filter_cons, hP, List.find?_cons, hne]
            using ih h.2
        · simpa [getFromCache, List.filter_cons, hP, List.find?_cons, hne]
            using ih h.2

theorem getFromCache_updateEntry (c : List (String × CachedResponse))
    (key : String) (v : CachedResponse) :
    getFromCache (updateEntry c key v) key
      = if (getFromCache c key).isSome then some v else none := by
  induction c with
  | nil => rfl
  | cons p rest ih =>
      obtain ⟨k, w⟩ := p
      by_cases hk : k = key
      · subst hk
        simp [getFromCache, updateEntry, List.find?_cons]
      · have hne : (k == key) = false := by simp [hk]
        simp only [updateEntry, hne, Bool.false_eq_true, if_false, getFromCache,
          List.find?_cons] at ih ⊢
        exact ih

/-! ## C2 — mutating-method classification -/

/-- C2: the claim says `is_mutating_method` is exact, case-sensitive
equality against `{POST, PUT, PATCH, DELETE}`; the source's
`checkRequestIgnorable` disagrees already at the concrete method `PUT`,
which the configured set `METHODS_TO_IGNORE` does not contain. -/
theorem c2_counterexample :
    checkRequestIgnorable "PUT" = false ∧ specMutatingMethod "PUT" = true := by
  constructor
  · rfl
  · rfl

/-- C2 (amended): `checkRequestIgnorable` returns true iff the request
method contains one of the configured methods `DELETE`, `POST`, `PATCH`
(no `PUT`) as a substring — Go `strings.Contains`, not exact equality;
e.g. the method `POSTX` is classified as mutating. -/
theorem c2_amended (method : String) :
    checkRequestIgnorable method = true ↔
      ∃ m ∈ METHODS_TO_IGNORE, m.data <:+: method.data := by
  simp [checkRequestIgnorable, goStringsContains, List.any_eq_true]

/-! ## C4 — cache lookup, expiry boundary, `lastUsed` update -/

theorem getCachedResponse_fst (st : VaultCacheState) (key : String) (now : Int)
    (hnd : (cacheKeys st.cache).Nodup) :
    (getCachedResponse st key now).1 =
      match getFromCache st.cache key with
      | some cr => if now ≤ cr.expires then some { cr with lastUsed := now } else none
      | none => none := by
  unfold getCachedResponse purgeOldCacheEntries
  by_cases hp : st.lastCachePurge < now - VAULT_CACHE_PURGE_FREQUENCY * 1000
  · simp only [hp, if_true]
    rw [getFromCache_filter _ _ _ hnd]
    cases hgf : getFromCache st.cache key with
    | none => rfl
    | some cr =>
        by_cases he : now ≤ cr.expires
        · simp [CachedResponse.isExpired, he, not_lt.mpr he]
        · simp [CachedResponse.isExpired, he, lt_of_not_le he]
  · simp only [hp, if_false]
    cases hgf : getFromCache st.cache key with
    | none => rfl
    | some cr =>
        by_cases he : now ≤ cr.expires
        · simp [CachedResponse.isExpired, he, not_lt.mpr he]
        · simp [CachedResponse.isExpired, he, lt_of_not_le he]

theorem getCachedResponse_snd_lookup (st : VaultCacheState) (key : String)
    (now : Int) (cr : CachedResponse)
    (h : (getCachedResponse st key now).1 = some cr) :
    getFromCache (getCachedResponse st key now).2.cache key = some cr := by
  simp only [getCachedResponse] at h ⊢
  cases hgf : getFromCache (purgeOldCacheEntries st now).cache key with
  | none => rw [hgf] at h; simp at h
  | some cr0 =>
      rw [hgf] at h
      by_cases he : cr0.isExpired now
      · simp [he] at h
      · simp only [he, Bool.not_false, if_true] at h ⊢
        have hcr : cr = { cr0 with lastUsed := now } := by
          simpa using h.symm
        subst hcr
        simp [getFromCache_updateEntry, hgf]

/-- A cache entry that expires at instant 1000 (the boundary example). -/
def crBoundary : CachedResponse :=
  { status := 200, headers := [], bodyData := "v", expires := 1000, lastUsed := 0 }

/-- A one-entry cache holding `crBoundary` under key `"k"`. -/
def stBoundary : VaultCacheState :=
  { cache := [("k", crBoundary)], lastCachePurge := 1000 }

/-- C4: the claim requires the boundary instant `now = expires_at` to be
treated as expired and not served; the source's `isExpired` is the strict
`now > expires`, so at `now = expires_at` the entry IS returned as a hit.
Concrete input: an entry with `expires = 1000` looked up at `now = 1000`. -/
theorem c4_counterexample :
    crBoundary.expires ≤ (1000 : Int) ∧
    (getCachedResponse stBoundary "k" 1000).1.isSome = true := by
  constructor
  · decide
  · rfl

/-- C4 (amended): `getCachedResponse` returns a hit iff the entry is present
and `now ≤ expires_at` — an entry with `expires_at < now` is expired and
never a hit, but the boundary instant `now = expires_at` IS still served
(the source tests the strict `now > expires`); `expires_at` is set at
insertion to `now + DEFAULT_TTL`, and a hit updates the stored entry's
`last_used_at` to `now`. -/
theorem c4_amended (st : VaultCacheState) (key : String) (now : Int)
    (hnd : (cacheKeys st.cache).Nodup) :
    ((getCachedResponse st key now).1.isSome = true ↔
      ∃ cr, getFromCache st.cache key = some cr ∧ now ≤ cr.expires) ∧
    (∀ cr, (getCachedResponse st key now).1 = some cr →
      cr.lastUsed = now ∧
      getFromCache (getCachedResponse st key now).2.cache key = some cr) ∧
    (∀ response, (newCachedResponse response now).expires
      = now + VAULT_CACHE_DEFAULT_EXPIRATION * 1000) := by
  refine ⟨?_, ?_, fun _ => rfl⟩
  · rw [getCachedResponse_fst st key now hnd]
    cases hgf : getFromCache st.cache key with
    | none => simp
    | some cr =>
        by_cases he : now ≤ cr.expires <;> simp [he]
  · intro cr h
    refine ⟨?_, getCachedResponse_snd_lookup st key now cr h⟩
    rw [getCachedResponse_fst st key now hnd] at h
    cases hgf : getFromCache st.cache key with
    | none => rw [hgf] at h; exact absurd h (by simp)
    | some cr0 =>
        rw [hgf] at h
        by_cases he : now ≤ cr0.expires
        · simp only [he, if_true, Option.some_inj] at h
          rw [← h]
        · simp [he] at h

/-- A cache entry that expires at instant 5000. -/
def crFresh : CachedResponse :=
  { status := 200, headers := [], bodyData := "v", expires := 5000, lastUsed := 0 }

/-- A one-entry cache holding `crFresh` under key `"k"`. -/
def stFresh : VaultCacheState :=
  { cache := [("k", crFresh)], lastCachePurge := 100 }

/-- Witness for C4 (amended): at the concrete state with one fresh entry
(`expires = 5000`, key `"k"`, `now = 100`) the lookup is a hit. -/
theorem c4_witness :
    (getCachedResponse stFresh "k" 100).1.isSome = true := by
  have h := (c4_amended stFresh "k" 100 (by decide)).1
  exact h.mpr ⟨crFresh, rfl, by decide⟩

/-! ## C3 — `refreshCache` error handling -/

/-- An empty cache store. -/
def stEmpty : VaultCacheState := { cache := [], lastCachePurge := 0 }

/-- A 200 upstream response whose body stream fails after yielding
`"partial"` (the body-capture failure of the claim). -/
def respBadBody : HttpResponse :=
  { status := 200, headers := [], bodyBytes := "partial", bodyReadErr := true }

/-- C3 (the code, evaluated at the claim's failing inputs): (1) when the
upstream call fails — `client.Do` returns a nil response together with the
error — `refreshCache` reads `response.StatusCode` without checking `err`
and panics on the nil pointer, so the cache is untouched but the caller
never receives the original error; (2) when the upstream call succeeds with
status 200 but capturing the body fails, `newCachedResponse` DISCARDS the
`io.Copy` error and the entry IS inserted, built from the partial bytes. -/
theorem c3_code_bug :
    refreshCache stEmpty "k" 0 none (some "connection refused")
      = GoResult.nilPanic ∧
    refreshCache stEmpty "k" 0 (some respBadBody) none
      = GoResult.ok (respBadBody, none, setInCache stEmpty "k" respBadBody 0) ∧
    getFromCache (setInCache stEmpty "k" respBadBody 0).cache "k"
      = some (newCachedResponse respBadBody 0) := by
  exact ⟨rfl, rfl, rfl⟩

/-! ## C6, C10 — composite limiter -/

instance : IsTotal BucketLimiter (fun a b => a.limit ≤ b.limit) :=
  ⟨fun a b => le_total a.limit b.limit⟩

instance : IsTrans BucketLimiter (fun a b => a.limit ≤ b.limit) :=
  ⟨fun _ _ _ h1 h2 => le_trans h1 h2⟩

theorem bucketAllow_fst (b : BucketLimiter) :
    (bucketAllow b).1 = true ↔ 1 ≤ b.tokens := by
  by_cases h : 1 ≤ b.tokens <;> simp [bucketAllow, h]

theorem multiAllow_fst (l : List BucketLimiter) :
    (multiAllow l).1 = true ↔ ∀ b ∈ l, (bucketAllow b).1 = true := by
  induction l with
  | nil => simp [multiAllow]
  | cons b bs ih =>
      simp only [multiAllow, bucketAllow] at *
      by_cases hb : 1 ≤ b.tokens
      · simpa [hb] using ih
      · simp [hb]

theorem multiAllow_snd_of_true (l : List BucketLimiter)
    (h : ∀ b ∈ l, (bucketAllow b).1 = true) :
    (multiAllow l).2 = l.map (fun b => { b with tokens := b.tokens - 1 }) := by
  induction l with
  | nil => rfl
  | cons b bs ih =>
      have hb : 1 ≤ b.tokens := (bucketAllow_fst b).mp (h b (by simp))
      have hbs := ih (fun x hx => h x (by simp [hx]))
      simp [multiAllow, bucketAllow, hb, hbs]

/-- C6: `MultiLimiter` sorts its component buckets ascending by
steady-state rate at construction, the composite `Allow` succeeds iff every
component bucket individually allows (and then every component has consumed
one token), and `Limit` is the rate of the most restrictive (minimum-rate)
component. -/
theorem c6_multiLimiter (limiters : List BucketLimiter) (h : limiters ≠ []) :
    List.Sorted (fun a b => a.limit ≤ b.limit) (MultiLimiter limiters) ∧
    ((multiAllow (MultiLimiter limiters)).1 = true ↔
      ∀ b ∈ MultiLimiter limiters, (bucketAllow b).1 = true) ∧
    ((multiAllow (MultiLimiter limiters)).1 = true →
      (multiAllow (MultiLimiter limiters)).2
        = (MultiLimiter limiters).map (fun b => { b with tokens := b.tokens - 1 })) ∧
    (∃ r, multiLimit (MultiLimiter limiters) = some r ∧
      (∀ b ∈ limiters, r ≤ b.limit) ∧ ∃ b ∈ limiters, b.limit = r) := by
  have hperm : List.Perm (MultiLimiter limiters) limiters :=
    List.perm_insertionSort _ limiters
  have hsorted : List.Sorted (fun a b => a.limit ≤ b.limit)
      (MultiLimiter limiters) :=
    List.sorted_insertionSort _ limiters
  refine ⟨hsorted, multiAllow_fst _,
    fun ht => multiAllow_snd_of_true _ ((multiAllow_fst _).mp ht), ?_⟩
  cases hM : MultiLimiter limiters with
  | nil =>
      exfalso
      exact h (List.eq_nil_of_length_eq_zero (by
        simpa [hM] using hperm.length_eq.symm))
  | cons c rest =>
      refine ⟨c.limit, by simp [multiLimit, hM], ?_, ?_⟩
      · intro b hb
        have hbM : b ∈ MultiLimiter limiters := hperm.symm.subset hb
        rw [hM] at hbM
        rcases List.mem_cons.mp hbM with rfl | hbr
        · exact le_refl _
        · rw [hM] at hsorted
          exact (List.sorted_cons.mp hsorted).1 b hbr
      · exact ⟨c, hperm.subset (by simp [hM]), rfl⟩

/-- Witness for C6 at the configured fresh visitor pair (burst bucket,
sustained bucket): the composite is sorted, the `Allow` iff holds, and the
compound rate is the sustained bucket's 1/12 events per second. -/
theorem c6_witness :
    ((multiAllow (MultiLimiter [burstBucket 1, sustainedBucket 5])).1 = true ↔
      ∀ b ∈ MultiLimiter [burstBucket 1, sustainedBucket 5],
        (bucketAllow b).1 = true) ∧
    (∃ r, multiLimit (MultiLimiter [burstBucket 1, sustainedBucket 5]) = some r ∧
      (∀ b ∈ ([burstBucket 1, sustainedBucket 5] : List BucketLimiter),
        r ≤ b.limit) ∧
      ∃ b ∈ ([burstBucket 1, sustainedBucket 5] : List BucketLimiter),
        b.limit = r) :=
  ⟨(c6_multiLimiter [burstBucket 1, sustainedBucket 5] (by simp)).2.1,
   (c6_multiLimiter [burstBucket 1, sustainedBucket 5] (by simp)).2.2.2⟩

/-- C10: the composite `Allow` is not atomic — when the buckets before `b`
all allow and `b` denies, `Allow` returns false, yet each earlier bucket has
already irrevocably consumed one token, while `b` and the later buckets are
untouched. -/
theorem c10_allow_not_atomic (l1 l2 : List BucketLimiter) (b : BucketLimiter)
    (h1 : ∀ x ∈ l1, (bucketAllow x).1 = true) (h2 : (bucketAllow b).1 = false) :
    (multiAllow (l1 ++ b :: l2)).1 = false ∧
    (multiAllow (l1 ++ b :: l2)).2
      = l1.map (fun x => { x with tokens := x.tokens - 1 }) ++ b :: l2 := by
  induction l1 with
  | nil =>
      have hb : ¬ 1 ≤ b.tokens := by
        intro hge
        rw [(bucketAllow_fst b).mpr hge] at h2
        exact absurd h2 (by simp)
      simp [multiAllow, bucketAllow, hb]
  | cons x l1 ih =>
      have hx : 1 ≤ x.tokens := (bucketAllow_fst x).mp (h1 x (by simp))
      have hrec := ih (fun y hy => h1 y (by simp [hy]))
      simp [multiAllow, bucketAllow, hx, hrec.1, hrec.2]

/-- The burst bucket's steady-state rate: 2 events per second. -/
theorem per_burst : Per BURST_LIMIT_PER_SECOND goSecond = 2 := by
  norm_num [Per, goSecond, BURST_LIMIT_PER_SECOND]

theorem per_sustained : Per RATE_LIMIT_PER_MINUTE goMinute = 1 / 12 := by
  norm_num [Per, goMinute, RATE_LIMIT_PER_MINUTE]

/-- The configured visitor pair after the constructor's sort: the sustained
bucket (rate 1/12) precedes the burst bucket (rate 2). -/
theorem visitorLimiter_pair (bt st2 : Nat) :
    visitorLimiter bt st2 = [sustainedBucket st2, burstBucket bt] := by
  have hle : ¬ (burstBucket bt).limit ≤ (sustainedBucket st2).limit := by
    simp only [burstBucket, sustainedBucket, per_burst, per_sustained]
    norm_num
  simp [visitorLimiter, MultiLimiter, List.insertionSort, List.orderedInsert, hle]

/-- Witness for C10 at the configured per-visitor pair: the sort places the
sustained bucket first, and a request denied only by the burst bucket
(sustained holds 3 tokens, burst 0) still depletes one sustained token. -/
theorem c10_witness :
    visitorLimiter 0 3 = [sustainedBucket 3, burstBucket 0] ∧
    (multiAllow (visitorLimiter 0 3)).1 = false ∧
    (multiAllow (visitorLimiter 0 3)).2 = [sustainedBucket 2, burstBucket 0] := by
  have heq : visitorLimiter 0 3 = [sustainedBucket 3, burstBucket 0] :=
    visitorLimiter_pair 0 3
  have h := c10_allow_not_atomic [sustainedBucket 3] [] (burstBucket 0)
    (by
      intro x hx
      simp only [List.mem_singleton] at hx
      subst hx
      simp [bucketAllow, sustainedBucket])
    (by simp [bucketAllow, burstBucket])
  refine ⟨heq, ?_, ?_⟩
  · rw [heq]; exact h.1
  · rw [heq]
    have h2 := h.2
    simpa [sustainedBucket] using h2

/-! ## C7 — consistent-hash routing -/

theorem charListLe_total (a b : List Char) :
    charListLe a b = true ∨ charListLe b a = true := by
  induction a generalizing b with
  | nil => left; rfl
  | cons x as ih =>
      cases b with
      | nil => right; rfl
      | cons y bs =>
          by_cases h1 : x.toNat < y.toNat
          · left; simp [charListLe, h1]
          · by_cases h2 : y.toNat < x.toNat
            · right; simp [charListLe, h1, h2]
            · rcases ih bs with h | h
              · left; simp [charListLe, h1, h2, h]
              · right; simp [charListLe, h1, h2, h]

theorem charListLe_trans {a b c : List Char} (h1 : charListLe a b = true)
    (h2 : charListLe b c = true) : charListLe a c = true := by
  induction a generalizing b c with
  | nil => rfl
  | cons x as ih =>
      cases b with
      | nil => simp [charListLe] at h1
      | cons y bs =>
          cases c with
          | nil => simp [charListLe] at h2
          | cons z cs =>
              simp only [charListLe] at h1 h2 ⊢
              rcases Nat.lt_trichotomy x.toNat y.toNat with hxy | hxy | hxy
              · rcases Nat.lt_trichotomy y.toNat z.toNat with hyz | hyz | hyz
                · simp [show x.toNat < z.toNat by omega]
                · simp [show x.toNat < z.toNat by omega]
                · simp [show ¬ y.toNat < z.toNat by omega, hyz] at h2
              · have hxy2 : ¬ x.toNat < y.toNat := by omega
                have hyx2 : ¬ y.toNat < x.toNat := by omega
                simp only [hxy2, if_false, hyx2] at h1
                rcases Nat.lt_trichotomy y.toNat z.toNat with hyz | hyz | hyz
                · simp [show x.toNat < z.toNat by omega]
                · have hxz : ¬ x.toNat < z.toNat := by omega
                  have hzx : ¬ z.toNat < x.toNat := by omega
                  have hyz2 : ¬ y.toNat < z.toNat := by omega
                  have hzy2 : ¬ z.toNat < y.toNat := by omega
                  simp only [hyz2, if_false, hzy2] at h2
                  simp only [hxz, if_false, hzx]
                  exact ih h1 h2
                · simp [show ¬ y.toNat < z.toNat by omega, hyz] at h2
              · simp [show ¬ x.toNat < y.toNat by omega, hxy] at h1

instance : IsTotal Server (fun a b => goStringLe a.nodeId b.nodeId = true) :=
  ⟨fun a b => charListLe_total a.nodeId.data b.nodeId.data⟩

instance : IsTrans Server (fun a b => goStringLe a.nodeId b.nodeId = true) :=
  ⟨fun _ _ _ h1 h2 => charListLe_trans h1 h2⟩

/-- C7: for any published snapshot built from a server list with `N ≥ 1`
peers, the snapshot is the `node_id`-ascending ordering of the peers, the
routing table is its address sequence indexed `0..N-1`, and
`GetRoutingServer` returns exactly
`routing_table[murmur3_32(token, seed 0x1234ABCD) mod N]`, which always
exists; the computation depends only on the snapshot contents and the
token, so any two peers holding equal snapshots compute the same owner. -/
theorem c7_routing (ss : List Server) (tok : List Nat) (now : Int)
    (h : 1 ≤ ss.length) :
    List.Sorted (fun a b => goStringLe a.nodeId b.nodeId = true)
      (publishSnapshot ss now).servers ∧
    List.Perm (publishSnapshot ss now).servers ss ∧
    (publishSnapshot ss now).routingTable
      = (publishSnapshot ss now).servers.map (·.address) ∧
    getRoutingServer (publishSnapshot ss now) tok
      = (publishSnapshot ss now).routingTable[hashToken tok % ss.length]? ∧
    (∃ addr, getRoutingServer (publishSnapshot ss now) tok = some addr) ∧
    (∀ st2 : AgentState, st2.servers = (publishSnapshot ss now).servers →
      st2.routingTable = (publishSnapshot ss now).routingTable →
      ∀ tok2, tok2 = tok →
        getRoutingServer st2 tok2 = getRoutingServer (publishSnapshot ss now) tok) := by
  have hperm : List.Perm (sortServers ss) ss := List.perm_insertionSort _ ss
  have hlen : (sortServers ss).length = ss.length := hperm.length_eq
  refine ⟨List.sorted_insertionSort _ ss, hperm, rfl, ?_, ?_, ?_⟩
  · simp [getRoutingServer, publishSnapshot, hlen]
  · have hidx : hashToken tok % ss.length < ss.length :=
      Nat.mod_lt _ (by omega)
    have heq : getRoutingServer (publishSnapshot ss now) tok
        = ((sortServers ss).map (·.address))[hashToken tok % ss.length]? := by
      simp [getRoutingServer, publishSnapshot, hlen]
    rw [heq]
    have hlt : hashToken tok % ss.length
        < ((sortServers ss).map (·.address)).length := by
      simp only [List.length_map, hlen]
      omega
    exact ⟨_, List.getElem?_eq_getElem hlt⟩
  · intro st2 hs ht tok2 htok
    subst htok
    simp [getRoutingServer, hs, ht]

/-- Two peers for the C7 witness, listed out of `node_id` order. -/
def srvRaft2 : Server :=
  { address := "127.0.0.1:7445", nodeId := "raft2", leader := false, voter := true }

/-- The other C7 witness peer. -/
def srvRaft1 : Server :=
  { address := "127.0.0.1:7444", nodeId := "raft1", leader := true, voter := true }

/-- Witness for C7: publishing the two-peer snapshot sorts `raft1` before
`raft2`, and the token `"t2"` (bytes `[116, 50]`, Murmur3 value odd) routes
to index 1, the address of `raft2`. -/
theorem c7_witness :
    (∃ addr, getRoutingServer (publishSnapshot [srvRaft2, srvRaft1] 0) [116, 50]
      = some addr) ∧
    getRoutingServer (publishSnapshot [srvRaft2, srvRaft1] 0) [116, 50]
      = some "127.0.0.1:7445" := by
  refine ⟨(c7_routing [srvRaft2, srvRaft1] [116, 50] 0 (by decide)).2.2.2.2.1, ?_⟩
  have hmod : hashToken [116, 50] % 2 = 1 := by decide
  have hsort : sortServers [srvRaft2, srvRaft1] = [srvRaft1, srvRaft2] := by
    simp [sortServers, List.insertionSort, List.orderedInsert, srvRaft1, srvRaft2]
    decide
  simp only [getRoutingServer, publishSnapshot, hsort, List.map_cons, List.map_nil,
    List.length_cons, List.length_nil, Nat.zero_add]
  norm_num [hmod, srvRaft1, srvRaft2]

/-! ## C8 — membership refresh error handling -/

/-- A previously published one-peer snapshot (refresh last ran at 0). -/
def agentPrev : AgentState :=
  { servers := [srvRaft1], routingTable := ["127.0.0.1:7444"], lastConfigCheck := 0 }

/-- C8 (the code, evaluated at the claim's failing inputs): a refresh
attempt 10 seconds later (due, since `VAULT_CONFIG_CHECK_FREQUENCY = 5`)
that fails does NOT leave the previous snapshot in place: (1) on a network
error `client.Do` returns a nil response and the deferred
`resp.Body.Close()` dereferences it — the process panics; (2) on a
non-JSON/unparseable body `json.Unmarshal`'s error is ignored, the
zero-valued struct plus the two hard-coded mock servers replaces the
previous snapshot, and the routing table is rebuilt from the mocks. -/
theorem c8_code_bug :
    getVaultConfigDetails agentPrev 10000 none = GoResult.nilPanic ∧
    (∃ st2 : AgentState,
      getVaultConfigDetails agentPrev 10000 (some none) = GoResult.ok st2 ∧
      st2.servers ≠ agentPrev.servers ∧
      st2.servers.map (·.nodeId) = ["raft2", "raft3"] ∧
      st2.routingTable = ["127.0.0.1:8001", "127.0.0.1:8002"]) := by
  refine ⟨rfl, ⟨_, rfl, ?_, ?_, ?_⟩⟩ <;> decide

/-! ## C9 — upstream-proxy error surfacing -/

/-- An upstream 503 response (a 5xx, not a Go-level error). -/
def resp503 : HttpResponse :=
  { status := 503, headers := [], bodyBytes := "upstream overloaded", bodyReadErr := false }

/-- C9: the claim says an upstream 5xx on a cacheable read is surfaced as a
synthesized 500; but `http.Client.Do` does not treat a 5xx status as an
error, so `err` is nil, no `http.Error` runs, and the client receives the
upstream 503 verbatim. -/
theorem c9_counterexample :
    clientStatus (serveHTTP stEmpty "k" true false 0 (some resp503) none).1
      = some 503 ∧ (503 : Nat) ≠ 500 := by
  exact ⟨rfl, by decide⟩

/-- C9 (amended): whenever the upstream call yields a response with no
Go-level error — any status, 5xx included — the response is surfaced to the
client verbatim, for cacheable and non-cacheable requests alike.  Only a
transport error (nil response) diverges: on a cacheable read the handler
panics inside `refreshCache` before any 500 can be written, and on a
non-cacheable request it writes the synthesized 500 and then panics copying
the nil response. -/
theorem c9_amended (cacheSt : VaultCacheState) (cacheKey : String)
    (isPathCacheable isRequestIgnorable : Bool) (now : Int)
    (doResponse : Option HttpResponse) (doErr : Option String) :
    (∀ r, doResponse = some r → doErr = none →
      (serveHTTP cacheSt cacheKey isPathCacheable isRequestIgnorable now
        doResponse doErr).1 = ProxyOutcome.served r.status r.bodyBytes) ∧
    (doResponse = none → (isPathCacheable && !isRequestIgnorable) = true →
      (serveHTTP cacheSt cacheKey isPathCacheable isRequestIgnorable now
        doResponse doErr).1 = ProxyOutcome.nilDeref) ∧
    (doResponse = none → doErr.isSome = true →
      (isPathCacheable && !isRequestIgnorable) = false →
      (serveHTTP cacheSt cacheKey isPathCacheable isRequestIgnorable now
        doResponse doErr).1 = ProxyOutcome.error500ThenNilDeref) := by
  refine ⟨?_, ?_, ?_⟩
  · intro r hr he
    subst hr; subst he
    by_cases hc : (isPathCacheable && !isRequestIgnorable) = true
    · simp [serveHTTP, refreshCache, hc]
    · simp only [serveHTTP, hc, Bool.not_eq_true] at *
      simp [hc]
  · intro hr hc
    subst hr
    simp [serveHTTP, refreshCache, hc]
  · intro hr he hc
    subst hr
    cases doErr with
    | none => simp at he
    | some e => simp [serveHTTP, refreshCache, hc]

/-- Witness for C9 (amended) at concrete inputs: a non-cacheable 503 is
served verbatim; a transport error on a cacheable read is a bare panic; a
transport error on a non-cacheable request writes the 500 and then panics. -/
theorem c9_witness :
    (serveHTTP stEmpty "k" false false 0 (some resp503) none).1
      = ProxyOutcome.served 503 "upstream overloaded" ∧
    (serveHTTP stEmpty "k" true false 0 none (some "net")).1
      = ProxyOutcome.nilDeref ∧
    (serveHTTP stEmpty "k" false true 0 none (some "net")).1
      = ProxyOutcome.error500ThenNilDeref := by
  refine ⟨?_, ?_, ?_⟩
  · exact (c9_amended stEmpty "k" false false 0 (some resp503) none).1 resp503 rfl rfl
  · exact (c9_amended stEmpty "k" true false 0 none (some "net")).2.1 rfl rfl
  · exact (c9_amended stEmpty "k" false true 0 none (some "net")).2.2 rfl rfl rfl

/-! ## C1 — rate-limiter middleware stage -/

theorem lookupVisitor_updateVisitor (m : List (String × Visitor)) (key : String)
    (f : Visitor → Visitor) :
    lookupVisitor (updateVisitor m key f) key = (lookupVisitor m key).map f := by
  induction m with
  | nil => rfl
  | cons p rest ih =>
      obtain ⟨k, v⟩ := p
      by_cases hk : k = key
      · subst hk
        simp [lookupVisitor, updateVisitor, List.find?_cons]
      · have hne : (k == key) = false := by simp [hk]
        simp only [updateVisitor, hne, Bool.false_eq_true, if_false,
          lookupVisitor, List.find?_cons] at ih ⊢
        exact ih

theorem lookupVisitor_append_left_none (m1 m2 : List (String × Visitor))
    (key : String) (h : lookupVisitor m1 key = none) :
    lookupVisitor (m1 ++ m2) key = lookupVisitor m2 key := by
  induction m1 with
  | nil => rfl
  | cons p rest ih =>
      obtain ⟨k, v⟩ := p
      by_cases hk : k = key
      · subst hk; simp [lookupVisitor, List.find?_cons] at h
      · have hne : (k == key) = false := by simp [hk]
        simp only [lookupVisitor, List.find?_cons, hne, List.cons_append] at h ⊢
        exact ih h

theorem anyKey_eq_lookup_isSome (m : List (String × Visitor)) (key : String) :
    m.any (fun p => p.1 == key) = (lookupVisitor m key).isSome := by
  induction m with
  | nil => rfl
  | cons p rest ih =>
      obtain ⟨k, v⟩ := p
      by_cases hk : k = key
      · subst hk; simp [lookupVisitor, List.find?_cons]
      · have hne : (k == key) = false := by simp [hk]
        simp only [List.any_cons, hne, Bool.false_or, lookupVisitor,
          List.find?_cons] at ih ⊢
        exact ih

theorem getFromLimiterCache_of_found_fst (reg : LimiterRegistry) (token : String)
    (now : Int) (v : Visitor)
    (h : lookupVisitor reg.limiterCache token = some v) :
    (getFromLimiterCache reg token now).1 = v.buckets := by
  unfold getFromLimiterCache
  rw [h]

theorem getFromLimiterCache_of_found_snd (reg : LimiterRegistry) (token : String)
    (now : Int) (v : Visitor)
    (h : lookupVisitor reg.limiterCache token = some v) :
    (getFromLimiterCache reg token now).2.limiterCache
      = updateVisitor reg.limiterCache token (fun w => { w with lastUsed := now }) := by
  unfold getFromLimiterCache
  rw [h]

theorem getFromLimiterCache_of_missing (reg : LimiterRegistry) (token : String)
    (now : Int) (h : lookupVisitor reg.limiterCache token = none) :
    getFromLimiterCache reg token now = setInLimiterCache reg token now := by
  unfold getFromLimiterCache
  rw [h]

theorem setInLimiterCache_lookup (reg : LimiterRegistry) (token : String) (now : Int) :
    lookupVisitor (setInLimiterCache reg token now).2.limiterCache token
      = some { buckets := (setInLimiterCache reg token now).1, lastUsed := now } := by
  unfold setInLimiterCache
  simp only []
  by_cases hany :
      ((purgeLruTokenLimiters reg.limiterCache).any (fun p => p.1 == token)) = true
  · rw [if_pos hany]
    rw [lookupVisitor_updateVisitor]
    have h2 := hany
    rw [anyKey_eq_lookup_isSome] at h2
    cases hl2 : lookupVisitor (purgeLruTokenLimiters reg.limiterCache) token with
    | none => rw [hl2] at h2; simp at h2
    | some w => simp
  · rw [if_neg hany]
    have h2 := hany
    rw [anyKey_eq_lookup_isSome] at h2
    have hl2 : lookupVisitor (purgeLruTokenLimiters reg.limiterCache) token = none := by
      cases hl3 : lookupVisitor (purgeLruTokenLimiters reg.limiterCache) token with
      | none => rfl
      | some w => rw [hl3] at h2; simp at h2
    rw [lookupVisitor_append_left_none _ _ _ hl2]
    simp [lookupVisitor, List.find?_cons]

/-- After `getFromLimiterCache`, the requested key is always present, its
stored limiter is exactly the returned one, and its `lastUsed` is `now`
(bumped on a hit, stamped at creation on a miss). -/
theorem getFromLimiterCache_resolves (reg : LimiterRegistry) (key : String)
    (now : Int) :
    lookupVisitor (getFromLimiterCache reg key now).2.limiterCache key
      = some { buckets := (getFromLimiterCache reg key now).1, lastUsed := now } := by
  cases hl : lookupVisitor reg.limiterCache key with
  | some v =>
      rw [getFromLimiterCache_of_found_snd reg key now v hl,
          getFromLimiterCache_of_found_fst reg key now v hl]
      rw [lookupVisitor_updateVisitor, hl]
      rfl
  | none =>
      rw [getFromLimiterCache_of_missing reg key now hl]
      exact setInLimiterCache_lookup reg key now

/-- The composite limiter the rate-limit stage resolves for a request:
idle purge, then `getFromLimiterCache` (which bumps `lastUsed` or creates a
fresh visitor). -/
def resolvedLimiter (reg : LimiterRegistry) (limiterKey : String) (now : Int) :
    List BucketLimiter :=
  (getFromLimiterCache (purgeTokenLimiters reg now) limiterKey now).1

theorem rateLimitHandler_registry (reg : LimiterRegistry)
    (cacheSt : VaultCacheState) (limiterKey cacheKey : String)
    (cacheable ignorable : Bool) (now : Int) :
    (rateLimitHandler reg cacheSt limiterKey cacheKey cacheable ignorable
        now).2.1.limiterCache
      = updateVisitor
          (getFromLimiterCache (purgeTokenLimiters reg now) limiterKey
            now).2.limiterCache
          limiterKey
          (fun w => { w with
            buckets := (multiAllow (resolvedLimiter reg limiterKey now)).2 }) := by
  simp only [rateLimitHandler, resolvedLimiter]
  by_cases hc : (cacheable && !ignorable) = true
  · rw [if_pos hc]
    cases hgc : (getCachedResponse cacheSt cacheKey now).1 with
    | some cr => rfl
    | none =>
        cases hma : (multiAllow (getFromLimiterCache (purgeTokenLimiters reg now)
            limiterKey now).1).1 <;> simp [hma]
  · rw [if_neg hc]
    cases hma : (multiAllow (getFromLimiterCache (purgeTokenLimiters reg now)
        limiterKey now).1).1 <;> simp [hma]

/-- C1: in the rate-limiter stage, exactly one non-blocking `Allow` is
consumed from the request's composite limiter before any cache access — on
every path, the visitor stored in the resulting registry holds the
post-consumption bucket states, whatever the cache or the decision did; a
cacheable, non-mutating request with a non-expired cache hit is answered
with the cached response and terminates regardless of the allow/deny
decision; 429 is synthesized iff the decision was deny and no hit was
served; otherwise the request passes to the upstream-proxy stage. -/
theorem c1_rateLimitHandler (reg : LimiterRegistry) (cacheSt : VaultCacheState)
    (limiterKey cacheKey : String) (cacheable ignorable : Bool) (now : Int) :
    (lookupVisitor
        (rateLimitHandler reg cacheSt limiterKey cacheKey cacheable ignorable
          now).2.1.limiterCache limiterKey
      = some { buckets := (multiAllow (resolvedLimiter reg limiterKey now)).2
             , lastUsed := now }) ∧
    ((∃ cr, (rateLimitHandler reg cacheSt limiterKey cacheKey cacheable
        ignorable now).1 = LimitedOutcome.cachedHit cr) ↔
      ((cacheable && !ignorable) = true ∧
        (getCachedResponse cacheSt cacheKey now).1.isSome = true)) ∧
    ((rateLimitHandler reg cacheSt limiterKey cacheKey cacheable ignorable
        now).1 = LimitedOutcome.tooMany ↔
      ((multiAllow (resolvedLimiter reg limiterKey now)).1 = false ∧
        ¬((cacheable && !ignorable) = true ∧
          (getCachedResponse cacheSt cacheKey now).1.isSome = true))) ∧
    ((rateLimitHandler reg cacheSt limiterKey cacheKey cacheable ignorable
        now).1 = LimitedOutcome.next ↔
      ((multiAllow (resolvedLimiter reg limiterKey now)).1 = true ∧
        ¬((cacheable && !ignorable) = true ∧
          (getCachedResponse cacheSt cacheKey now).1.isSome = true))) := by
  refine ⟨?_, ?_, ?_, ?_⟩
  · rw [rateLimitHandler_registry, lookupVisitor_updateVisitor,
      getFromLimiterCache_resolves]
    rfl
  all_goals (
    simp only [rateLimitHandler, resolvedLimiter]
    by_cases hc : (cacheable && !ignorable) = true
    · rw [if_pos hc]
      cases hgc : (getCachedResponse cacheSt cacheKey now).1 with
      | some cr => simp [hc, hgc]
      | none =>
          cases hma : (multiAllow (getFromLimiterCache
              (purgeTokenLimiters reg now) limiterKey now).1).1 <;>
            simp [hc, hgc, hma]
    · rw [if_neg hc]
      cases hma : (multiAllow (getFromLimiterCache
          (purgeTokenLimiters reg now) limiterKey now).1).1 <;>
        simp [hc, hma])

/-! ## C5 — LRU eviction pass -/

/-- Evict all entries whose key is in `ks`. -/
def removeKeys (ks : List String) (c : List (String × CachedResponse)) :
    List (String × CachedResponse) :=
  c.filter (fun p => !(ks.contains p.1))

/-- The number of entries the purge loop deletes, as a function of the
current map length (first argument, pre-deletion) and the loop index: the
loop deletes, re-reads the shrunken length, and stops when `i ≥ len/4`. -/
def loopDel : Nat → Nat → Nat
  | 0, _ => 0
  | n + 1, i => if n / 4 ≤ i then 1 else 1 + loopDel n (i + 1)

theorem loopDel_closed (n i : Nat) :
    loopDel (n + 1) i = (n - (4 * i + 3) + 4) / 5 + 1 := by
  induction n generalizing i with
  | zero => simp [loopDel]
  | succ n ih =>
      rw [loopDel]
      by_cases h : (n + 1) / 4 ≤ i
      · rw [if_pos h]; omega
      · rw [if_neg h]
        rw [ih]
        omega

theorem loopDel_start (n : Nat) (h : 1 ≤ n) : loopDel n 0 = n / 5 + 1 := by
  obtain ⟨m, rfl⟩ : ∃ m, n = m + 1 := ⟨n - 1, by omega⟩
  rw [loopDel_closed]
  omega

theorem mem_cacheKeys {c : List (String × CachedResponse)} {k : String} :
    k ∈ cacheKeys c ↔ ∃ p ∈ c, p.1 = k := by
  simp [cacheKeys]

theorem goDeleteKey_length {c : List (String × CachedResponse)} {k : String}
    (hnd : (cacheKeys c).Nodup) (hmem : k ∈ cacheKeys c) :
    (goDeleteKey c k).length = c.length - 1 := by
  induction c with
  | nil => simp [cacheKeys] at hmem
  | cons p rest ih =>
      simp only [cacheKeys, List.map_cons, List.nodup_cons, List.mem_cons] at hnd hmem
      rcases hmem with hk | hk
      · have hrest : goDeleteKey rest p.1 = rest := by
          apply List.filter_eq_self.mpr
          intro q hq
          simp only [bne_iff_ne, ne_eq]
          intro he
          exact hnd.1 (by simpa [cacheKeys] using mem_cacheKeys.mpr ⟨q, hq, he⟩)
        have hstep : goDeleteKey (p :: rest) p.1 = goDeleteKey rest p.1 := by
          simp [goDeleteKey, List.filter_cons]
        rw [hk, hstep, hrest]
        simp
      · have hne : (p.1 != k) = true := by
          simp only [bne_iff_ne, ne_eq]
          intro he
          rw [he] at hnd
          exact hnd.1 (by simpa [cacheKeys] using hk)
        have hlen : 1 ≤ rest.length := by
          rcases mem_cacheKeys.mp (by simpa [cacheKeys] using hk) with ⟨q, hq, _⟩
          exact List.length_pos.mpr (List.ne_nil_of_mem hq)
        simp only [goDeleteKey, List.filter_cons, hne, if_true, List.length_cons]
        rw [show (rest.filter (fun p => p.1 != k)).length = rest.length - 1 from
          ih hnd.2 (by simpa [cacheKeys] using hk)]
        omega

theorem mem_cacheKeys_goDeleteKey {c : List (String × CachedResponse)}
    {k k' : String} (hne : k' ≠ k) :
    k' ∈ cacheKeys (goDeleteKey c k) ↔ k' ∈ cacheKeys c := by
  simp only [mem_cacheKeys, goDeleteKey, List.mem_filter]
  constructor
  · rintro ⟨p, ⟨hp, _⟩, hk⟩
    exact ⟨p, hp, hk⟩
  · rintro ⟨p, hp, hk⟩
    refine ⟨p, ⟨hp, ?_⟩, hk⟩
    simp only [bne_iff_ne, ne_eq, hk]
    exact hne

theorem cacheKeys_goDeleteKey_nodup {c : List (String × CachedResponse)}
    {k : String} (hnd : (cacheKeys c).Nodup) :
    (cacheKeys (goDeleteKey c k)).Nodup := by
  have hsub : List.Sublist (goDeleteKey c k) c := List.filter_sublist c
  simp only [cacheKeys] at hnd ⊢
  exact List.Nodup.sublist (hsub.map (fun p => p.1)) hnd

theorem removeKeys_cons (k : String) (l : List String)
    (c : List (String × CachedResponse)) :
    removeKeys (k :: l) c = removeKeys l (goDeleteKey c k) := by
  unfold removeKeys goDeleteKey
  rw [List.filter_filter]
  apply List.filter_congr
  intro p _
  show (!((k :: l).contains p.1)) = (!(l.contains p.1) && (p.1 != k))
  by_cases h1 : p.1 = k
  · simp [h1, List.contains_cons]
  · by_cases h2 : l.contains p.1 = true
    · simp [h1, h2, List.contains_cons]
    · simp only [Bool.not_eq_true] at h2
      simp [h1, h2, List.contains_cons]

theorem removeKeys_singleton (k : String) (c : List (String × CachedResponse)) :
    removeKeys [k] c = goDeleteKey c k := by
  unfold removeKeys goDeleteKey
  apply List.filter_congr
  intro p _
  show (!([k].contains p.1)) = (p.1 != k)
  by_cases h1 : p.1 = k
  · simp [h1, List.contains_cons]
  · simp [h1, List.contains_cons]

theorem removeKeys_length {l : List String} {c : List (String × CachedResponse)}
    (hl : l.Nodup) (hsub : ∀ k ∈ l, k ∈ cacheKeys c)
    (hnd : (cacheKeys c).Nodup) :
    (removeKeys l c).length = c.length - l.length := by
  induction l generalizing c with
  | nil => simp [removeKeys]
  | cons k l ih =>
      rw [removeKeys_cons]
      have hk : k ∈ cacheKeys c := hsub k (by simp)
      have hlen := goDeleteKey_length hnd hk
      have hlpos : 1 ≤ c.length := by
        rcases mem_cacheKeys.mp hk with ⟨q, hq, _⟩
        exact List.length_pos.mpr (List.ne_nil_of_mem hq)
      rw [ih (List.nodup_cons.mp hl).2 ?_ (cacheKeys_goDeleteKey_nodup hnd), hlen]
      · simp only [List.length_cons]
        omega
      · intro k' hk'
        have hne : k' ≠ k := by
          intro he
          subst he
          exact (List.nodup_cons.mp hl).1 hk'
        exact (mem_cacheKeys_goDeleteKey hne).mpr (hsub k' (by simp [hk']))

theorem not_mem_cacheKeys_removeKeys {l : List String} {k : String}
    (c : List (String × CachedResponse)) (hk : k ∈ l) :
    k ∉ cacheKeys (removeKeys l c) := by
  intro hmem
  rcases mem_cacheKeys.mp hmem with ⟨p, hp, hpk⟩
  simp only [removeKeys, List.mem_filter] at hp
  rcases hp with ⟨_, hnc⟩
  have hcontains : l.contains p.1 = true := by
    rw [hpk]
    exact List.elem_eq_true_of_mem hk
  rw [hcontains] at hnc
  simp at hnc

theorem purgeLoop_eq_removeKeys :
    ∀ (ks : List String) (i : Nat) (c : List (String × CachedResponse)),
      (cacheKeys c).Nodup → ks.Nodup → (∀ k ∈ ks, k ∈ cacheKeys c) →
      ks.length = c.length →
      purgeLoop ks i c = removeKeys (ks.take (loopDel c.length i)) c
  | [], i, c, _, _, _, hlen => by
      have hc : c = [] := List.eq_nil_of_length_eq_zero hlen.symm
      subst hc
      rfl
  | k :: ks, i, c, hnd, hksnd, hsub, hlen => by
      have hkmem : k ∈ cacheKeys c := hsub k (by simp)
      have hc'len : (goDeleteKey c k).length = c.length - 1 :=
        goDeleteKey_length hnd hkmem
      have hclen : 1 ≤ c.length := by
        simp only [List.length_cons] at hlen
        omega
      obtain ⟨m, hm⟩ : ∃ m, c.length = m + 1 := ⟨c.length - 1, by omega⟩
      have hm' : (goDeleteKey c k).length = m := by omega
      have hkslen : ks.length = m := by
        simp only [List.length_cons] at hlen
        omega
      simp only [purgeLoop]
      rw [hm, loopDel]
      by_cases hcond : m / 4 ≤ i
      · rw [if_pos (by omega : (goDeleteKey c k).length / 4 ≤ i), if_pos hcond]
        rw [List.take_succ_cons, List.take_zero, removeKeys_singleton]
      · rw [if_neg (by omega : ¬ (goDeleteKey c k).length / 4 ≤ i), if_neg hcond]
        have hrec := purgeLoop_eq_removeKeys ks (i + 1) (goDeleteKey c k)
          (cacheKeys_goDeleteKey_nodup hnd)
          (List.nodup_cons.mp hksnd).2
          (fun k' hk' => by
            have hne : k' ≠ k := by
              intro he
              subst he
              exact (List.nodup_cons.mp hksnd).1 hk'
            exact (mem_cacheKeys_goDeleteKey hne).mpr (hsub k' (by simp [hk'])))
          (by omega)
        rw [hrec, hm']
        rw [show 1 + loopDel m (i + 1) = loopDel m (i + 1) + 1 from by omega]
        rw [List.take_succ_cons, removeKeys_cons]

theorem sortedKeysByLu_perm (c : List (String × CachedResponse)) :
    List.Perm (sortedKeysByLu c) (cacheKeys c) :=
  List.perm_insertionSort _ _

theorem sortedKeysByLu_sorted (c : List (String × CachedResponse)) :
    List.Sorted (fun a b => luOf c a ≤ luOf c b) (sortedKeysByLu c) := by
  haveI : IsTotal String (fun a b => luOf c a ≤ luOf c b) :=
    ⟨fun a b => le_total _ _⟩
  haveI : IsTrans String (fun a b => luOf c a ≤ luOf c b) :=
    ⟨fun _ _ _ h1 h2 => le_trans h1 h2⟩
  exact List.sorted_insertionSort _ _

theorem find?_eq_of_mem_nodup {c : List (String × CachedResponse)}
    {p : String × CachedResponse} (hmem : p ∈ c)
    (hnd : (cacheKeys c).Nodup) :
    c.find? (fun q => q.1 == p.1) = some p := by
  induction c with
  | nil => simp at hmem
  | cons q rest ih =>
      simp only [cacheKeys, List.map_cons, List.nodup_cons] at hnd
      rcases List.mem_cons.mp hmem with rfl | hmem'
      · simp [List.find?_cons]
      · by_cases hq : (q.1 == p.1) = true
        · exfalso
          apply hnd.1
          rw [beq_iff_eq] at hq
          rw [hq]
          have : p.1 ∈ cacheKeys rest := mem_cacheKeys.mpr ⟨p, hmem', rfl⟩
          simpa [cacheKeys] using this
        · have hq' : (q.1 == p.1) = false := by simpa using hq
          rw [List.find?_cons, hq']
          exact ih hmem' hnd.2

theorem luOf_eq_of_mem {c : List (String × CachedResponse)}
    {p : String × CachedResponse} (hmem : p ∈ c)
    (hnd : (cacheKeys c).Nodup) : luOf c p.1 = p.2.lastUsed := by
  unfold luOf getFromCache
  rw [find?_eq_of_mem_nodup hmem hnd]
  rfl

/-- C5 (amended): when `insert` finds the map at or above `CACHE_SIZE`, the
eviction pass deletes exactly the first `size/5 + 1` keys (floor division,
i.e. `⌈(size+1)/5⌉`) of the `last_used_at`-ascending stable sort — not
`⌈size/4⌉`: the loop re-reads the shrinking map length after each delete.
The LRU progress bound still holds: at least one and at most `⌈size/4⌉+1`
entries are evicted, always including the strictly oldest entry by
`last_used_at` when one exists. -/
theorem c5_amended (c : List (String × CachedResponse))
    (hnd : (cacheKeys c).Nodup) (hfull : CACHE_SIZE ≤ c.length) :
    (purgeLruCacheEntries c
      = removeKeys ((sortedKeysByLu c).take (c.length / 5 + 1)) c) ∧
    ((purgeLruCacheEntries c).length = c.length - (c.length / 5 + 1)) ∧
    (1 ≤ c.length - (purgeLruCacheEntries c).length) ∧
    (c.length - (purgeLruCacheEntries c).length ≤ (c.length + 3) / 4 + 1) ∧
    (∀ p ∈ c, (∀ q ∈ c, q.1 ≠ p.1 → p.2.lastUsed < q.2.lastUsed) →
      p.1 ∉ cacheKeys (purgeLruCacheEntries c)) := by
  have hfull2 : 2 ≤ c.length := by simpa [CACHE_SIZE] using hfull
  have hperm := sortedKeysByLu_perm c
  have hSlen : (sortedKeysByLu c).length = c.length := by
    rw [hperm.length_eq]
    simp [cacheKeys]
  have hSnodup : (sortedKeysByLu c).Nodup := hperm.nodup_iff.mpr hnd
  have hSsub : ∀ k ∈ sortedKeysByLu c, k ∈ cacheKeys c :=
    fun k hk => hperm.subset hk
  have hd : loopDel c.length 0 = c.length / 5 + 1 :=
    loopDel_start c.length (by omega)
  have hdle : c.length / 5 + 1 ≤ c.length := by omega
  have hmain : purgeLruCacheEntries c
      = removeKeys ((sortedKeysByLu c).take (c.length / 5 + 1)) c := by
    unfold purgeLruCacheEntries
    rw [if_pos hfull]
    rw [purgeLoop_eq_removeKeys (sortedKeysByLu c) 0 c hnd hSnodup hSsub hSlen, hd]
  have htakelen : ((sortedKeysByLu c).take (c.length / 5 + 1)).length
      = c.length / 5 + 1 := by
    rw [List.length_take, hSlen]
    omega
  have htakenodup : ((sortedKeysByLu c).take (c.length / 5 + 1)).Nodup :=
    List.Nodup.sublist (List.take_sublist _ _) hSnodup
  have htakesub : ∀ k ∈ (sortedKeysByLu c).take (c.length / 5 + 1),
      k ∈ cacheKeys c :=
    fun k hk => hSsub k (List.take_subset _ _ hk)
  have hlen : (purgeLruCacheEntries c).length
      = c.length - (c.length / 5 + 1) := by
    rw [hmain, removeKeys_length htakenodup htakesub hnd, htakelen]
  refine ⟨hmain, hlen, by omega, by omega, ?_⟩
  intro p hp hold
  cases hS : sortedKeysByLu c with
  | nil =>
      exfalso
      rw [hS] at hSlen
      simp at hSlen
      omega
  | cons s0 S' =>
      have hpS : p.1 ∈ sortedKeysByLu c :=
        hperm.mem_iff.mpr (mem_cacheKeys.mpr ⟨p, hp, rfl⟩)
      have hhead : s0 = p.1 := by
        by_contra hne
        have hpS' : p.1 ∈ S' := by
          rw [hS] at hpS
          rcases List.mem_cons.mp hpS with he | h
          · exact absurd he.symm hne
          · exact h
        have hsorted := sortedKeysByLu_sorted c
        rw [hS] at hsorted
        have hle : luOf c s0 ≤ luOf c p.1 :=
          (List.sorted_cons.mp hsorted).1 p.1 hpS'
        have hs0mem : s0 ∈ cacheKeys c := hSsub s0 (by simp [hS])
        rcases mem_cacheKeys.mp hs0mem with ⟨q, hq, hq1⟩
        have hqp : q.1 ≠ p.1 := by rw [hq1]; exact hne
        have hlt : p.2.lastUsed < q.2.lastUsed := hold q hq hqp
        have h1 : luOf c p.1 = p.2.lastUsed := luOf_eq_of_mem hp hnd
        have h2 : luOf c s0 = q.2.lastUsed := by
          rw [← hq1]
          exact luOf_eq_of_mem hq hnd
        omega
      rw [hmain]
      apply not_mem_cacheKeys_removeKeys
      rw [hS, List.take_succ_cons]
      rw [← hhead]
      exact List.mem_cons_self _ _

/-- A fresh cache entry with the given `lastUsed` stamp. -/
def mkEntry (lu : Int) : CachedResponse :=
  { status := 200, headers := [], bodyData := "", expires := 1000000, lastUsed := lu }

/-- A nine-entry cache, keys `a..i`, `lastUsed` 1..9 ascending. -/
def cache9 : List (String × CachedResponse) :=
  [("a", mkEntry 1), ("b", mkEntry 2), ("c", mkEntry 3), ("d", mkEntry 4),
   ("e", mkEntry 5), ("f", mkEntry 6), ("g", mkEntry 7), ("h", mkEntry 8),
   ("i", mkEntry 9)]

/-- C5: the claim says the eviction pass deletes exactly the first
`⌈size/4⌉` keys; on a nine-entry cache `⌈9/4⌉ = 3`, which would leave 6
entries — but the loop checks `i >= len(cache)/4` against the shrinking
map, stops after deleting only 2 keys, and leaves 7. -/
theorem c5_counterexample :
    cache9.length = 9 ∧
    (purgeLruCacheEntries cache9).length = 7 ∧
    9 - (9 + 3) / 4 = 6 := by
  refine ⟨rfl, by decide, by decide⟩

/-- A two-entry cache at capacity (`CACHE_SIZE = 2`); `b` is strictly oldest. -/
def cache2 : List (String × CachedResponse) :=
  [("a", mkEntry 5), ("b", mkEntry 2)]

/-- Witness for C5 (amended) at the two-entry cache: one entry is evicted
(`2/5 + 1 = 1`) and the strictly oldest key `b` is among the evicted. -/
theorem c5_witness :
    (purgeLruCacheEntries cache2).length
      = cache2.length - (cache2.length / 5 + 1) ∧
    ("b" : String) ∉ cacheKeys (purgeLruCacheEntries cache2) := by
  have h := c5_amended cache2 (by decide) (by decide)
  exact ⟨h.2.1, h.2.2.2.2 ("b", mkEntry 2) (by decide) (by decide)⟩

end VaultProxy
